import Mathlib

/-!
Verification of the conversational-context cache and retrieval-budgeting
pipeline of the `conversational-faiss-rag-api` repository.

Shallow embedding of:
* `src/infrastructure/cache_manager/cache_manager.py` (`LRUCache`)
* `src/application/assistance/chains/process_history.py` (`ChatHistoryProcessor`)
* `src/application/assistance/chains/aggregate_docs_chain.py` (`AggregateDocsChain`)
* `src/application/assistance/chains/assistant_chain.py` (`AssistantChain._invoke`,
  retrieval-scoring part)
* `src/application/user_session/user_session.py` (`UserSession`)

Machine time is modelled as `Nat` (the Python code uses monotone float
timestamps); token counts as `Nat`; similarity scores as `ℚ`.
-/

namespace RagApi

/-! ## LRUCache (cache_manager.py)

State of `LRUCache`: `cache` is the `OrderedDict`, kept as a list with the
least-recently-used entry first and the most-recently-used entry last,
each entry `(key, value, timestamp)`; `expiryQueue` is the `deque` of
`(timestamp, key)` records in insertion order. -/

structure LRUState (V : Type) where
  capacity : Nat
  expiryTime : Nat
  cache : List (String × V × Nat)
  expiryQueue : List (Nat × String)
deriving Repr, DecidableEq

def LRUState.empty (V : Type) (capacity expiryTime : Nat) : LRUState V :=
  { capacity := capacity, expiryTime := expiryTime, cache := [], expiryQueue := [] }

/-- Keys currently resident in the cache, in LRU-to-MRU order. -/
def LRUState.keys {V : Type} (s : LRUState V) : List String :=
  s.cache.map (fun e => e.1)

/-- `LRUCache.get`: on a miss return `None` and leave everything unchanged; on a
hit, `move_to_end`, refresh the entry timestamp to the current time `t`, and
append a `(t, key)` record to the expiry queue. -/
def LRUState.get {V : Type} (s : LRUState V) (key : String) (t : Nat) :
    Option V × LRUState V :=
  match s.cache.find? (fun e => e.1 == key) with
  | none => (none, s)
  | some e =>
      (some e.2.1,
       { s with
          cache := (s.cache.filter (fun e' => !(e'.1 == key))) ++ [(key, e.2.1, t)],
          expiryQueue := s.expiryQueue ++ [(t, key)] })

/-- `LRUCache.put`: insert or update (which moves the key to the MRU end),
append a `(t, key)` expiry record, then evict the LRU front entry when the size
exceeds `capacity` (`popitem(last=False)`). -/
def LRUState.put {V : Type} (s : LRUState V) (key : String) (v : V) (t : Nat) :
    LRUState V :=
  let cache1 := (s.cache.filter (fun e' => !(e'.1 == key))) ++ [(key, v, t)]
  { s with
     cache := if cache1.length > s.capacity then cache1.tail else cache1,
     expiryQueue := s.expiryQueue ++ [(t, key)] }

/-- First phase of `LRUCache.cleanup`: pop expiry-queue records from the front
while the front record is older than `expiryTime`, removing the popped record's
key from the cache (`self.cache.pop(key, None)`). -/
def cleanupLoop {V : Type} (expiryTime t : Nat) :
    List (Nat × String) → List (String × V × Nat) →
    List (Nat × String) × List (String × V × Nat)
  | [], c => ([], c)
  | (qt, k) :: rest, c =>
      if t - qt > expiryTime then
        cleanupLoop expiryTime t rest (c.filter (fun e => !(e.1 == k)))
      else ((qt, k) :: rest, c)

/-- `LRUCache.cleanup` at current time `t`: drain expired queue records, then
delete every remaining cache entry whose own timestamp is older than
`expiryTime`. -/
def LRUState.cleanup {V : Type} (s : LRUState V) (t : Nat) : LRUState V :=
  let p := cleanupLoop s.expiryTime t s.expiryQueue s.cache
  { s with
     expiryQueue := p.1,
     cache := p.2.filter (fun e => !(t - e.2.2 > s.expiryTime)) }

/-- A client operation on the cache, tagged with the time at which it runs. -/
inductive LRUOp (V : Type) where
  | put (key : String) (v : V) (t : Nat)
  | get (key : String) (t : Nat)
deriving Repr, DecidableEq

def LRUState.step {V : Type} (s : LRUState V) : LRUOp V → LRUState V
  | .put key v t => s.put key v t
  | .get key t => (s.get key t).2

def LRUState.run {V : Type} (s : LRUState V) (ops : List (LRUOp V)) : LRUState V :=
  ops.foldl LRUState.step s

/-- Resident keys, most recently used first. -/
def LRUState.recentKeys {V : Type} (s : LRUState V) : List String :=
  s.keys.reverse

/-- Keep the first occurrence of every element, dropping later duplicates.
Applied to a most-recent-first touch history, this yields the keys in
most-recently-touched order. -/
def dedupKeepFirst : List String → List String
  | [] => []
  | k :: rest => k :: dedupKeepFirst (rest.filter (fun x => !(x == k)))
termination_by l => l.length
decreasing_by
  exact Nat.lt_succ_of_le (List.length_filter_le _ _)

/-! ## ChatHistoryProcessor (process_history.py)

Messages are abstracted over their type `α`; the tiktoken tokenizer is the
parameter `tok`, of which only the encoded length is used. -/

/-- The `for message in reversed(chat_history)` loop of
`ChatHistoryProcessor._process_chat_history`, with `msgs` the reversed history
(most recent first), `inc` the `included_messages` accumulator and `c` the
`current_token_count`.  Note the loop body inserts `message` at position 0
unconditionally and then, when it fits, inserts it at position 0 a second
time. -/
def processHistLoop {α : Type} (tok : α → Nat) (limit : Nat) :
    List α → List α → Nat → List α × Nat × Bool
  | [], inc, c => (inc, c, false)
  | m :: rest, inc, c =>
      let inc1 := m :: inc
      if c + tok m ≤ limit then processHistLoop tok limit rest (m :: inc1) (c + tok m)
      else (inc1, c, true)

/-- `ChatHistoryProcessor._process_chat_history` (the wall-clock timing
component of the Python return value is dropped): returns
`(included_messages, current_token_count, limit_exceeded)`. -/
def processChatHistory {α : Type} (tok : α → Nat) (limit : Nat)
    (chatHistory : List α) : List α × Nat × Bool :=
  processHistLoop tok limit chatHistory.reverse [] 0

/-- The behaviour the specification describes for the history packer: the
longest contiguous suffix of the history whose token total fits the budget,
each kept turn once, `limitExceeded` exactly when an older turn was dropped.
Modelled from the spec for comparison with `processChatHistory`. -/
def specHistoryPack {α : Type} (tok : α → Nat) (limit : Nat)
    (chatHistory : List α) : List α × Nat × Bool :=
  let rec keep : List α → Nat → List α × Nat × Bool
    | [], c => ([], c, false)
    | m :: rest, c =>
        if c + tok m ≤ limit then
          let p := keep rest (c + tok m)
          (p.1 ++ [m], p.2.1, p.2.2)
        else ([], c, true)
  keep chatHistory.reverse 0

/-! ## AggregateDocsChain (aggregate_docs_chain.py) -/

/-- A Langchain `Document`: metadata key/value pairs and `page_content`. -/
structure Document where
  metadata : List (String × String)
  page_content : String
deriving Repr, DecidableEq

/-- `", ".join(f"{key}: {value}" for key, value in doc.metadata.items())`. -/
def metadataStr (d : Document) : String :=
  String.intercalate ", " (d.metadata.map (fun kv => kv.1 ++ ": " ++ kv.2))

/-- The token cost charged for one document:
`len(tokenizer.encode(metadata_str)) + len(tokenizer.encode(doc.page_content))`. -/
def docTokens (tok : String → Nat) (d : Document) : Nat :=
  tok (metadataStr d) + tok d.page_content

/-- The block appended to `combined_text` for one document; `score` is the
already-rendered text of `float(score)`. -/
def docBlock (d : Document) (score : String) : String :=
  "\n\n[Metadata: " ++ metadataStr d ++ "]\n[Content: " ++ d.page_content ++
    "]\n[Score: " ++ score ++ "]"

/-- The document loop of `AggregateDocsChain._aggregate_docs_until_token_limit`,
with accumulators `text` (`combined_text`) and `c` (`token_count`). -/
def aggLoop (tok : String → Nat) (limit : Nat) :
    List (Document × String) → String → Nat → String × Nat × Bool
  | [], text, c => (text, c, false)
  | (d, score) :: rest, text, c =>
      if c + docTokens tok d > limit then (text, c, true)
      else aggLoop tok limit rest (text ++ docBlock d score) (c + docTokens tok d)

/-- `AggregateDocsChain._aggregate_docs_until_token_limit`: aggregate documents
until the token limit, substituting the sentinel when nothing was packed. -/
def aggregateDocs (tok : String → Nat) (limit : Nat)
    (docs : List (Document × String)) : String × Nat × Bool :=
  let p := aggLoop tok limit docs "" 0
  if p.1 ≠ "" then p else ("No context provided", p.2.1, p.2.2)

/-- Number of leading documents the greedy packer keeps, starting from a running
total `c`. Modelled from the spec (the claimed "longest prefix" length) for
comparison with `aggregateDocs`. -/
def specFitLen (tok : String → Nat) (limit : Nat) :
    List (Document × String) → Nat → Nat
  | [], _ => 0
  | (d, _) :: rest, c =>
      if c + docTokens tok d > limit then 0
      else specFitLen tok limit rest (c + docTokens tok d) + 1

/-- Concatenation of the formatted blocks of a document list. -/
def docsText (l : List (Document × String)) : String :=
  l.foldl (fun acc ds => acc ++ docBlock ds.1 ds.2) ""

/-- The packed result the claim describes: the longest prefix of the ranked
documents whose cumulative token count fits the budget, the sentinel text when
that prefix is empty, and `limitExceeded` exactly when a document was cut.
Modelled from the spec for comparison with `aggregateDocs`. -/
def specPackDocs (tok : String → Nat) (limit : Nat)
    (docs : List (Document × String)) : String × Nat × Bool :=
  let k := specFitLen tok limit docs 0
  let kept := docs.take k
  ((if k = 0 then "No context provided" else docsText kept),
   (kept.map (fun ds => docTokens tok ds.1)).sum,
   decide (k < docs.length))

/-! ## Retrieval scoring in AssistantChain._invoke (assistant_chain.py, lines 77-95)

Scores are modelled as rationals.  The two special numpy behaviours that matter
are modelled explicitly: elementwise division by a zero sum yields NaN/Inf
entries, and every comparison `NaN <= cutoff` is false, so in the zero-sum case
`np.where(cdf <= cutoff)` finds no index; and `index = None` followed by
`doc[0][:index+1]` raises an uncaught `TypeError` (`None + 1`). -/

/-- `np.sort` ascending (insertion sort; only the sorted values matter). -/
def insSorted (x : ℚ) : List ℚ → List ℚ
  | [] => [x]
  | y :: ys => if x ≤ y then x :: y :: ys else y :: insSorted x ys

def npSortAsc : List ℚ → List ℚ
  | [] => []
  | x :: xs => insSorted x (npSortAsc xs)

/-- `np.cumsum`. -/
def npCumsum (l : List ℚ) : List ℚ :=
  (l.scanl (· + ·) 0).tail

/-- `np.max` over a nonempty array (`npMax [] = 0` is never reached: an empty
score row already fails earlier, at `None + 1`). -/
def npMax : List ℚ → ℚ
  | [] => 0
  | x :: xs => xs.foldl max x

/-- The positions `np.where(cdf <= cutoff)[0]` of the cumulative distribution of
the descending-sorted normalized scores.  When the score sum is zero the
normalized scores are NaN/Inf and no comparison with `cutoff` holds. -/
def qualifyingIdxs (scores : List ℚ) (cutoff : ℚ) : List Nat :=
  if scores.sum = 0 then []
  else
    let norm := scores.map (fun x => x / scores.sum)
    let cdf := npCumsum (npSortAsc norm).reverse
    (List.range cdf.length).filter (fun i => decide (cdf.getD i 0 ≤ cutoff))

/-- The document-selection part of `AssistantChain._invoke` (lines 77-95):
normalize the FAISS score row, find the last cumulative position within
`cutoff`, slice documents and scores to `index + 1`, and when the maximum raw
score passes `minScore` build `[(selected_docs[i], selected_scores[i]) for i in
range(index)]`; `doc0` is the FAISS index row `doc[0]`, `documents` the list
loaded by `load_documents`.  Errors model uncaught Python exceptions. -/
def assistantRetrieve (scores : List ℚ) (doc0 : List Nat) (documents : List String)
    (cutoff minScore : ℚ) : Except String (List (String × ℚ)) :=
  match (qualifyingIdxs scores cutoff).getLast? with
  | none => .error "TypeError: unsupported operand for +: NoneType and int"
  | some index =>
      let selected_doc_indexes := doc0.take (index + 1)
      match selected_doc_indexes.mapM (fun i => documents.get? i) with
      | none => .error "IndexError: documents"
      | some selected_docs =>
          let selected_scores := scores.take (index + 1)
          if npMax scores ≥ minScore then
            match (List.range index).mapM (fun i =>
                (selected_docs.get? i).bind (fun d =>
                  (selected_scores.get? i).map (fun sc => (d, sc)))) with
            | none => .error "IndexError: selection"
            | some retrieved => .ok retrieved
          else .ok []

/-! ## UserSession (user_session.py)

The durable store is `PostgresSession` (postgres_session.py): its read flattens
the session's interaction rows back into messages.  The fast cache is the
Redis chat-history backend: `user_session.py` imports
`infrastructure.redis_manager.redis_session`, a module that does not exist
under that spelling; the repository's `RedisSession` lives in the misspelled
package `src/infrastracture/redis_manager/redis_session.py` and is what
`context.py` wires in.  Its `get_chat_history` returns the stored message list
(`[]` when the key is absent or on a Redis error) and its `store_chat_message`
appends with `rpush`, which on the absent-or-empty keys the read path writes to
coincides with a plain set; it has **no** `delete_chat_history` method.  The
cache is modelled as a per-session map with those get/set semantics; a durable
**read** failure is the explicit parameter `pgOk` of `userGetChatHistory`. -/

/-- A chat message: `HumanMessage` or `AIMessage` with string content. -/
inductive Msg where
  | human (content : String)
  | ai (content : String)
deriving Repr, DecidableEq

/-- One `UserInteraction` row: `user_query` and `llm_response`, each possibly
absent. -/
structure Row where
  user_query : Option String
  llm_response : Option String
deriving Repr, DecidableEq

/-- The world visible to `UserSession`: the Postgres rows per session and the
Redis cache entries per session. Session ids are numbered. -/
structure World where
  store : List (Nat × List Row)
  cache : List (Nat × List Msg)
deriving Repr, DecidableEq

def lookupAssoc {β : Type} (l : List (Nat × β)) (k : Nat) : Option β :=
  (l.find? (fun e => e.1 == k)).map (fun e => e.2)

def setAssoc {β : Type} (l : List (Nat × β)) (k : Nat) (v : β) : List (Nat × β) :=
  (l.filter (fun e => !(e.1 == k))) ++ [(k, v)]

/-- Python truthiness of an optional string (`if row.user_query:`). -/
def truthy : Option String → Bool
  | none => false
  | some s => !(s == "")

/-- `PostgresSession.get_chat_history`: flatten the session's rows, appending
`HumanMessage(user_query)` then `AIMessage(llm_response)` for each row, each
only when truthy. -/
def pgReadHistory (w : World) (sid : Nat) : List Msg :=
  ((lookupAssoc w.store sid).getD []).flatMap (fun r =>
    (match r.user_query with
     | some q => if truthy (some q) then [Msg.human q] else []
     | none => []) ++
    (match r.llm_response with
     | some a => if truthy (some a) then [Msg.ai a] else []
     | none => []))

/-- `UserSession.get_chat_history` (cache-aside read).  The whole body runs in a
`try` whose handler returns `[]`, so the result is always `.ok`; `pgOk = false`
makes the Postgres read raise.  Returns the history and the post-call world. -/
def userGetChatHistory (pgOk : Bool) (w : World) (sid : Nat) :
    Except String (List Msg) × World :=
  match lookupAssoc w.cache sid with
  | some cached =>
      if cached ≠ [] then (.ok cached, w)
      else
        if pgOk then
          let h := pgReadHistory w sid
          if h ≠ [] then (.ok h, { w with cache := setAssoc w.cache sid h })
          else (.ok [], w)
        else (.ok [], w)
  | none =>
      if pgOk then
        let h := pgReadHistory w sid
        if h ≠ [] then (.ok h, { w with cache := setAssoc w.cache sid h })
        else (.ok [], w)
      else (.ok [], w)

/-- `UserSession.store_chat_message`.  Its docstring promises "Save the last
user query and LLM response to Postgres. Invalidate Redis cache.", but the
staged code cannot execute that contract: the first statement of the `try`
calls `self.postgres_session.store_chat_message(session_id, messages)`, while
the staged `PostgresSession.store_chat_message` (postgres_session.py line 110)
has a third required parameter `interaction_time`, so the call raises
`TypeError` at argument binding, before any database write; the `except`
handler logs the error and re-raises it.  (The next statement would fare no
better: `RedisSession` has no `delete_chat_history` attribute.)  Every
invocation therefore surfaces the error with the durable store and the cache
untouched. -/
def userStoreChatMessage (w : World) (sid : Nat) (messages : List Msg) :
    Except String Unit × World :=
  (.error
    "TypeError: store_chat_message() missing 1 required positional argument: interaction_time",
   w)

/-! ## C10: get on an absent key returns None and changes nothing -/

/-- C10: for every key not present in the cache, `get(key)` returns `None` and
leaves the entire cache state (entry map, recency order, expiry queue, all
timestamps) exactly as it was. -/
theorem lru_get_miss_frame (V : Type) (s : LRUState V) (key : String) (t : Nat)
    (h : key ∉ s.keys) : s.get key t = (none, s) := by
  unfold LRUState.get
  have hfind : s.cache.find? (fun e => e.1 == key) = none := by
    apply List.find?_eq_none.mpr
    intro e he hq
    exact h (List.mem_map.mpr ⟨e, he, by simpa using hq⟩)
  rw [hfind]

/-- Witness for C10 at a concrete one-entry cache state. -/
theorem lru_get_miss_frame_witness :
    "b" ∉ (⟨2, 100, [("a", 0, 5)], [(5, "a")]⟩ : LRUState Nat).keys ∧
    (⟨2, 100, [("a", 0, 5)], [(5, "a")]⟩ : LRUState Nat).get "b" 7
      = (none, (⟨2, 100, [("a", 0, 5)], [(5, "a")]⟩ : LRUState Nat)) :=
  ⟨by decide, lru_get_miss_frame Nat _ "b" 7 (by decide)⟩

/-! ## C2: the history packer duplicates kept turns and keeps the cut turn -/

/-- C2 (code bug): on a 2-turn history of 5 tokens each with budget 5, the
code returns `[5, 5, 5]` — the older turn that did **not** fit followed by the
fitting most-recent turn **twice** (the loop body inserts each message at
position 0 unconditionally and then inserts it again when it fits) — while the
behaviour described by the spec and by the function's own docstring ("keeping
only up to max_token_limit tokens") is `[5]`. -/
theorem processChatHistory_dup_bug :
    processChatHistory (fun n : Nat => n) 5 [5, 5] = ([5, 5, 5], 5, true) ∧
    specHistoryPack (fun n : Nat => n) 5 [5, 5] = ([5], 5, true) := by
  constructor <;> rfl

/-! ## C9: getHistory swallows read failures -/

/-- C9 counterexample: with an empty cache and a failing durable read,
`get_chat_history` returns the empty history `.ok []` (the `except` handler
returns `[]`), not an error — failure is indistinguishable from absence. -/
theorem userGet_failure_counterexample :
    userGetChatHistory false ⟨[], []⟩ 0 = (.ok [], (⟨[], []⟩ : World)) := rfl

/-- C9 amended: a session with no durable history returns an empty sequence
without populating the cache, and a durable-store read failure is caught and
likewise returned as an empty history with the world unchanged (the error is
logged, not surfaced). -/
theorem userGet_absence_eq_failure (w : World) (sid : Nat)
    (hmiss : lookupAssoc w.cache sid = none ∨ lookupAssoc w.cache sid = some []) :
    (pgReadHistory w sid = [] → userGetChatHistory true w sid = (.ok [], w)) ∧
    userGetChatHistory false w sid = (.ok [], w) := by
  unfold userGetChatHistory
  rcases hmiss with h | h <;> rw [h] <;>
    exact ⟨fun h2 => by simp [h2], by simp⟩

/-- Witness for C9's amended statement at an empty world. -/
theorem userGet_absence_eq_failure_witness :
    userGetChatHistory true ⟨[], []⟩ 0 = (.ok [], (⟨[], []⟩ : World)) ∧
    userGetChatHistory false ⟨[], []⟩ 0 = (.ok [], (⟨[], []⟩ : World)) :=
  ⟨(userGet_absence_eq_failure ⟨[], []⟩ 0 (Or.inl rfl)).1 rfl,
   (userGet_absence_eq_failure ⟨[], []⟩ 0 (Or.inl rfl)).2⟩

/-! ## C5: zero-sum score rows crash instead of signalling -/

/-- C5 counterexample: on the all-zero score row the ranker neither returns an
empty result set nor signals any `InvalidScoreDistribution` condition — the
unguarded `score[0] / np.sum(score[0])` produces a NaN-poisoned CDF, no
cutoff position qualifies, and `doc[0][:index+1]` raises `TypeError` on
`None + 1`. -/
theorem assistantRetrieve_zero_sum_counterexample :
    assistantRetrieve [0, 0] [0, 1] ["d1", "d2"] (4/5) 0
      = .error "TypeError: unsupported operand for +: NoneType and int" := by
  have h : ([0, 0] : List ℚ).sum = 0 := by simp
  unfold assistantRetrieve qualifyingIdxs
  rw [if_pos h]
  rfl

/-- C5 amended: for every raw score row with zero sum, the ranker raises an
uncaught type error (there is no guard and no `InvalidScoreDistribution`
condition anywhere in the code); the numpy division itself raises no fault —
the failure is the later `None + 1`. -/
theorem assistantRetrieve_zero_sum (scores : List ℚ) (doc0 : List Nat)
    (documents : List String) (cutoff minScore : ℚ) (h : scores.sum = 0) :
    assistantRetrieve scores doc0 documents cutoff minScore
      = .error "TypeError: unsupported operand for +: NoneType and int" := by
  unfold assistantRetrieve qualifyingIdxs
  rw [if_pos h]
  rfl

/-- Witness for C5's amended statement on the all-zero row. -/
theorem assistantRetrieve_zero_sum_witness :
    ([0, 0] : List ℚ).sum = 0 ∧
    assistantRetrieve [0, 0] [0, 1] ["d1", "d2"] (4/5) (1/2)
      = .error "TypeError: unsupported operand for +: NoneType and int" :=
  ⟨by simp, assistantRetrieve_zero_sum [0, 0] [0, 1] ["d1", "d2"] (4/5) (1/2)
      (by simp)⟩

/-! ## C3: appendTurn cannot perform persist-then-invalidate -/

/-- C3 (code bug): the claim — persist the new turns durably before any cache
mutation, delete the session's cache entry on success, surface the error with
the cache untouched on failure — is the method's own documented contract, but
the staged code can never realize its success half: every invocation raises
`TypeError` at the Postgres call (two arguments passed to the three-argument
`PostgresSession.store_chat_message`), before any durable write, and the
handler re-raises it, leaving the durable store and the cache exactly as they
were; a subsequent `get_chat_history` still returns the pre-call cached value,
as the closing conjunct shows for a world caching `[human "h"]` for session 0.
(Even with the arity fixed, the cache-invalidation call names
`delete_chat_history`, a method `RedisSession` does not have.) -/
theorem userStore_chat_message_bug :
    (∀ (w : World) (sid : Nat) (messages : List Msg),
       userStoreChatMessage w sid messages
         = (.error
             "TypeError: store_chat_message() missing 1 required positional argument: interaction_time",
            w)) ∧
    userGetChatHistory true
        (userStoreChatMessage ⟨[], [(0, [Msg.human "h"])]⟩ 0
          [Msg.human "q", Msg.ai "r"]).2 0
      = (.ok [Msg.human "h"], (⟨[], [(0, [Msg.human "h"])]⟩ : World)) :=
  ⟨fun _ _ _ => rfl, rfl⟩

/-! ## C6: no floor rule — no qualifying cutoff position means a crash -/

theorem insSorted_length (x : ℚ) (l : List ℚ) :
    (insSorted x l).length = l.length + 1 := by
  induction l with
  | nil => rfl
  | cons y ys ih =>
      unfold insSorted
      by_cases h : x ≤ y <;> simp [h, ih]

theorem npSortAsc_length (l : List ℚ) : (npSortAsc l).length = l.length := by
  induction l with
  | nil => rfl
  | cons x xs ih => simp [npSortAsc, insSorted_length, ih]

theorem npCumsum_length (l : List ℚ) : (npCumsum l).length = l.length := by
  unfold npCumsum
  rw [List.length_tail, List.length_scanl]
  omega

/-- C6 counterexample: on scores `[7/8, 1/8]` with `cutoffDistance = 0.8` no
cumulative position qualifies (`cdf = [7/8, 1]`), and instead of retaining the
top candidate `d1` as a floor the code raises `TypeError` on `None + 1`. -/
theorem assistantRetrieve_no_floor_counterexample :
    assistantRetrieve [(7:ℚ)/8, 1/8] [0, 1] ["d1", "d2"] (4/5) 0
      = .error "TypeError: unsupported operand for +: NoneType and int" := by
  norm_num [assistantRetrieve, qualifyingIdxs, npCumsum, npSortAsc, insSorted,
    List.range_succ]

/-- C6 amended: when no position of the descending-sorted normalized-score CDF
is within `cutoff`, the ranker raises an uncaught type error (`index = None`
followed by `doc[0][:index+1]`) instead of retaining the top candidate; and
even when a cutoff position exists the ranker can return zero candidates
although a candidate passed the minimum-score filter (the final comprehension
iterates `range(index)`, dropping the document at the cutoff index itself, as
the second conjunct shows for `index = 0`). -/
theorem assistantRetrieve_no_floor (scores : List ℚ) (doc0 : List Nat)
    (documents : List String) (cutoff minScore : ℚ)
    (hsum : scores.sum ≠ 0)
    (hc : ∀ i, i < scores.length →
      cutoff <
        (npCumsum (npSortAsc (scores.map (fun x => x / scores.sum))).reverse).getD i 0) :
    assistantRetrieve scores doc0 documents cutoff minScore
      = .error "TypeError: unsupported operand for +: NoneType and int" ∧
    assistantRetrieve [(3:ℚ)/4, 1/4] [0, 1] ["d1", "d2"] (4/5) (1/2) = .ok [] := by
  constructor
  · unfold assistantRetrieve qualifyingIdxs
    rw [if_neg hsum]
    have hnil :
        (List.range
            (npCumsum (npSortAsc (scores.map (fun x => x / scores.sum))).reverse).length).filter
          (fun i => decide
            ((npCumsum (npSortAsc (scores.map (fun x => x / scores.sum))).reverse).getD i 0
              ≤ cutoff)) = [] := by
      apply List.filter_eq_nil.mpr
      intro i hi
      rw [List.mem_range, npCumsum_length, List.length_reverse, npSortAsc_length,
        List.length_map] at hi
      simp only [decide_eq_true_eq, not_le]
      exact hc i hi
    rw [hnil]
    rfl
  · norm_num [assistantRetrieve, qualifyingIdxs, npCumsum, npSortAsc, insSorted, npMax,
      List.range_succ, List.mapM.loop]

/-- Witness for C6's amended statement on scores `[7/8, 1/8]`,
`cutoffDistance = 0.8`. -/
theorem assistantRetrieve_no_floor_witness :
    assistantRetrieve [(7:ℚ)/8, 1/8] [0, 1] ["d1", "d2"] (4/5) (1/2)
      = .error "TypeError: unsupported operand for +: NoneType and int" := by
  refine (assistantRetrieve_no_floor [(7:ℚ)/8, 1/8] [0, 1] ["d1", "d2"] (4/5) (1/2)
    (by norm_num) ?_).1
  intro i hi
  simp only [List.length_cons, List.length_nil] at hi
  interval_cases i <;> norm_num [npCumsum, npSortAsc, insSorted]

/-! ## C7: no per-candidate minimum-score filter, and the cutoff index is cut -/

/-- C7 counterexample: scores `[3/4, 1/8, 1/8]`, `cutoffDistance = 1`,
`minScoreDistance = 1/2`; the claim demands positions 0..2 minus the
individually sub-minimum candidates, i.e. `[("d0", 3/4)]`, but the code keeps
`("d1", 1/8)` whose raw score `1/8` is below `minScoreDistance = 1/2` (the
minimum-score check only gates on `np.max`), while dropping `"d2"` (the
comprehension stops before the cutoff index). -/
theorem assistantRetrieve_min_filter_counterexample :
    assistantRetrieve [(3:ℚ)/4, 1/8, 1/8] [0, 1, 2] ["d0", "d1", "d2"] 1 (1/2)
      = .ok [("d0", 3/4), ("d1", 1/8)] ∧ ((1:ℚ)/8 < 1/2) := by
  constructor
  · norm_num [assistantRetrieve, qualifyingIdxs, npCumsum, npSortAsc, insSorted, npMax,
      List.range_succ, List.mapM.loop]
  · norm_num

theorem mapM_option_eq_map {γ β : Type} (f : γ → Option β) (g : γ → β)
    (l : List γ) (h : ∀ a ∈ l, f a = some (g a)) : l.mapM f = some (l.map g) := by
  induction l with
  | nil => rfl
  | cons a l ih =>
      rw [List.mapM_cons, h a (List.mem_cons_self a l),
        ih (fun b hb => h b (List.mem_cons_of_mem a hb))]
      rfl

theorem get?_eq_some_getD {γ : Type} (l : List γ) (i : Nat) (d : γ)
    (h : i < l.length) : l.get? i = some (l.getD i d) := by
  rw [List.getD_eq_get?]
  rcases hh : l.get? i with _ | x
  · exact absurd (List.get?_eq_none.mp hh) (by omega)
  · rfl

/-- C7 amended: whenever a cutoff index exists and all index lookups are in
range, the surviving set is all-or-nothing: if the **maximum** raw score passes
`minScoreDistance`, the result is the candidates at positions `0 .. index - 1`
(the cutoff index itself is excluded) paired with their raw scores, regardless
of how many of them are individually below `minScoreDistance`; otherwise the
result is empty. -/
theorem assistantRetrieve_keeps_range_index (scores : List ℚ) (doc0 : List Nat)
    (documents : List String) (cutoff minScore : ℚ) (index : Nat)
    (hidx : (qualifyingIdxs scores cutoff).getLast? = some index)
    (hdocs : ∀ i ∈ doc0.take (index + 1), i < documents.length)
    (hd0 : index ≤ doc0.length) (hsc : index ≤ scores.length) :
    assistantRetrieve scores doc0 documents cutoff minScore
      = .ok (if npMax scores ≥ minScore then
               (List.range index).map (fun i =>
                 (documents.getD (doc0.getD i 0) "", scores.getD i 0))
             else []) := by
  have h1 : (doc0.take (index + 1)).mapM (fun i => documents.get? i)
      = some ((doc0.take (index + 1)).map (fun i => documents.getD i "")) :=
    mapM_option_eq_map _ _ _ (fun i hi => get?_eq_some_getD _ _ _ (hdocs i hi))
  have h2 : (List.range index).mapM (fun i =>
      (((doc0.take (index + 1)).map (fun i => documents.getD i "")).get? i).bind
        (fun d => ((scores.take (index + 1)).get? i).map (fun sc => (d, sc))))
      = some ((List.range index).map (fun i =>
          (documents.getD (doc0.getD i 0) "", scores.getD i 0))) := by
    apply mapM_option_eq_map
    intro i hi
    rw [List.mem_range] at hi
    have hdoc : ((doc0.take (index + 1)).map (fun i => documents.getD i "")).get? i
        = some (documents.getD (doc0.getD i 0) "") := by
      rw [List.get?_map, List.get?_take (by omega),
        get?_eq_some_getD doc0 i 0 (by omega)]
      rfl
    have hscore : (scores.take (index + 1)).get? i = some (scores.getD i 0) := by
      rw [List.get?_take (by omega), get?_eq_some_getD scores i 0 (by omega)]
    rw [hdoc, hscore]
    rfl
  unfold assistantRetrieve
  rw [hidx]
  simp only [h1, h2]
  split <;> rfl

/-- Witness for C7's amended statement: scores `[3/4, 1/4]`, cutoff `1`,
`minScoreDistance = 0`; the cutoff index is `1`, and only position `0` (i.e.
`range(1)`) survives. -/
theorem assistantRetrieve_keeps_range_index_witness :
    assistantRetrieve [(3:ℚ)/4, 1/4] [0, 1] ["d1", "d2"] 1 0
      = .ok [("d1", 3/4)] := by
  rw [assistantRetrieve_keeps_range_index [(3:ℚ)/4, 1/4] [0, 1] ["d1", "d2"] 1 0 1
    (by norm_num [qualifyingIdxs, npCumsum, npSortAsc, insSorted, List.range_succ])
    (by decide) (by decide) (by decide)]
  norm_num [npMax, List.range_succ]

/-! ## C4: the document packer keeps exactly the longest fitting prefix -/

theorem docsText_nil : docsText [] = "" := rfl

theorem docsText_foldl (l : List (Document × String)) (a : String) :
    l.foldl (fun acc ds => acc ++ docBlock ds.1 ds.2) a = a ++ docsText l := by
  induction l generalizing a with
  | nil => simp [docsText, String.append_empty]
  | cons x l ih =>
      rw [List.foldl_cons, ih]
      unfold docsText
      rw [List.foldl_cons, String.empty_append, ih (docBlock x.1 x.2),
        String.append_assoc]
      rfl

theorem docsText_cons (x : Document × String) (l : List (Document × String)) :
    docsText (x :: l) = docBlock x.1 x.2 ++ docsText l := by
  unfold docsText
  rw [List.foldl_cons, String.empty_append, docsText_foldl]
  rfl

theorem docBlock_length_pos (d : Document) (score : String) :
    0 < (docBlock d score).length := by
  unfold docBlock
  simp only [String.length_append]
  have h13 : ("\n\n[Metadata: " : String).length = 13 := by decide
  omega

theorem docsText_cons_ne_empty (x : Document × String)
    (l : List (Document × String)) : docsText (x :: l) ≠ "" := by
  intro he
  have hlen := congrArg String.length he
  rw [docsText_cons, String.length_append] at hlen
  have h0 : ("" : String).length = 0 := by decide
  have := docBlock_length_pos x.1 x.2
  omega

/-- `aggLoop` computes exactly the spec-side greedy pack, relative to an
arbitrary starting text and running token count. -/
theorem aggLoop_eq (tok : String → Nat) (limit : Nat) :
    ∀ (docs : List (Document × String)) (text : String) (c : Nat),
      aggLoop tok limit docs text c =
        (text ++ docsText (docs.take (specFitLen tok limit docs c)),
         c + ((docs.take (specFitLen tok limit docs c)).map
               (fun ds => docTokens tok ds.1)).sum,
         decide (specFitLen tok limit docs c < docs.length)) := by
  intro docs
  induction docs with
  | nil =>
      intro text c
      simp [aggLoop, specFitLen, docsText_nil, String.append_empty]
  | cons ds rest ih =>
      intro text c
      obtain ⟨d, s⟩ := ds
      unfold aggLoop specFitLen
      by_cases h : c + docTokens tok d > limit
      · rw [if_pos h, if_pos h]
        simp [docsText_nil, String.append_empty]
      · rw [if_neg h, if_neg h, ih (text ++ docBlock d s) (c + docTokens tok d)]
        simp only [List.take_succ_cons, docsText_cons, List.map_cons,
          List.sum_cons, List.length_cons]
        refine congrArg₂ Prod.mk ?_ (congrArg₂ Prod.mk (by omega) ?_)
        · rw [String.append_assoc]
        · simp [Nat.succ_lt_succ_iff]

/-- The spec-side greedy prefix never exceeds the remaining budget. -/
theorem specFitLen_sum_le (tok : String → Nat) (limit : Nat) :
    ∀ (l : List (Document × String)) (c : Nat), c ≤ limit →
      c + ((l.take (specFitLen tok limit l c)).map
            (fun ds => docTokens tok ds.1)).sum ≤ limit := by
  intro l
  induction l with
  | nil => intro c hc; simpa [specFitLen] using hc
  | cons e tl ihl =>
      intro c hc
      obtain ⟨d, s⟩ := e
      unfold specFitLen
      by_cases hh : c + docTokens tok d > limit
      · rw [if_pos hh]; simpa using hc
      · rw [if_neg hh]
        simp only [List.take_succ_cons, List.map_cons, List.sum_cons]
        have := ihl (c + docTokens tok d) (by omega)
        omega

/-- The spec-side greedy prefix length is maximal among the prefix lengths
whose cumulative token count fits the remaining budget. -/
theorem specFitLen_maximal (tok : String → Nat) (limit : Nat) :
    ∀ (docs : List (Document × String)) (c j : Nat), j ≤ docs.length →
      c + ((docs.take j).map (fun ds => docTokens tok ds.1)).sum ≤ limit →
      j ≤ specFitLen tok limit docs c := by
  intro docs
  induction docs with
  | nil =>
      intro c j hj _
      simp only [List.length_nil, Nat.le_zero] at hj
      simp [hj]
  | cons ds rest ih =>
      intro c j hj hsum
      obtain ⟨d, s⟩ := ds
      match j with
      | 0 => exact Nat.zero_le _
      | j' + 1 =>
          simp only [List.take_succ_cons, List.map_cons, List.sum_cons] at hsum
          have hfit : ¬ (c + docTokens tok d > limit) := by omega
          unfold specFitLen
          rw [if_neg hfit]
          have := ih (c + docTokens tok d) j' (by simpa using hj) (by omega)
          omega

/-- C4: the aggregated context equals the spec-described pack — the longest
prefix (in rank order) whose cumulative `tokens(metadata) + tokens(content)`
count fits `maxContextTokens` (the stream is cut at the first document that
would exceed it, never skip-and-continue), the sentinel `"No context provided"`
with `tokenCount = 0` when no document fits, and `limitExceeded` exactly when a
document was cut; the reported `tokenCount` never exceeds the budget; and the
kept prefix length is maximal among the prefix lengths whose cumulative count
fits the budget. -/
theorem aggregateDocs_spec (tok : String → Nat) (limit : Nat)
    (docs : List (Document × String)) :
    (aggregateDocs tok limit docs = specPackDocs tok limit docs ∧
     (aggregateDocs tok limit docs).2.1 ≤ limit) ∧
    ∀ j, j ≤ docs.length →
      ((docs.take j).map (fun ds => docTokens tok ds.1)).sum ≤ limit →
      j ≤ specFitLen tok limit docs 0 := by
  have hcount0 := specFitLen_sum_le tok limit docs 0 (Nat.zero_le _)
  refine ⟨⟨?_, ?_⟩, fun j hj hs =>
    specFitLen_maximal tok limit docs 0 j hj (by simpa using hs)⟩
  · unfold aggregateDocs specPackDocs
    rw [aggLoop_eq tok limit docs "" 0, String.empty_append]
    rcases hk : specFitLen tok limit docs 0 with _ | k'
    · simp [docsText_nil]
    · rcases docs with _ | ⟨e, tl⟩
      · simp [specFitLen] at hk
      · rw [List.take_succ_cons, docsText_cons]
        have hne := docsText_cons_ne_empty e (tl.take k')
        rw [docsText_cons] at hne
        simp [hne]
        exact (docsText_cons e (List.take k' tl)).symm
  · rw [aggregateDocs, aggLoop_eq tok limit docs "" 0]
    split
    · simpa using hcount0
    · simpa using hcount0

/-- Witness for C4 on two concrete documents whose token counts (with the
length tokenizer) are 6 and 4, budget exactly 10: the packed result matches the
spec-side pack, and the full prefix of length 2 is within the budget. -/
theorem aggregateDocs_spec_witness :
    (aggregateDocs String.length 10
        [(⟨[("s", "x")], "ab"⟩, "1.0"), (⟨[], "cdef"⟩, "0.5")]
      = specPackDocs String.length 10
        [(⟨[("s", "x")], "ab"⟩, "1.0"), (⟨[], "cdef"⟩, "0.5")]) ∧
    2 ≤ specFitLen String.length 10
        [(⟨[("s", "x")], "ab"⟩, "1.0"), (⟨[], "cdef"⟩, "0.5")] 0 :=
  ⟨((aggregateDocs_spec String.length 10
      [(⟨[("s", "x")], "ab"⟩, "1.0"), (⟨[], "cdef"⟩, "0.5")]).1).1,
   (aggregateDocs_spec String.length 10
      [(⟨[("s", "x")], "ab"⟩, "1.0"), (⟨[], "cdef"⟩, "0.5")]).2 2
      (by decide) (by decide)⟩

/-! ## C8: cleanup is not sliding expiration -/

/-- C8 counterexample: with `expiryTime = 100`, put `"a"` at `t = 0`, read it
at `t = 50` (which refreshes its timestamp), run cleanup at `t = 101`: the
entry is removed although its last access was only 51 seconds ago, because the
stale `(0, "a")` expiry-queue record triggers `self.cache.pop("a")`. -/
theorem lru_cleanup_counterexample :
    ((((LRUState.empty Nat 2 100).put "a" 7 0).get "a" 50).2.cleanup 101).cache = []
      ∧ 101 - 50 ≤ 100 := by
  constructor
  · rfl
  · decide

theorem keys_of_filter_ne {V : Type} (c : List (String × V × Nat)) (k x : String) :
    x ∈ (c.filter (fun e => !(e.1 == k))).map (fun e => e.1) ↔
      (x ∈ c.map (fun e => e.1) ∧ x ≠ k) := by
  constructor
  · intro hx
    obtain ⟨e, he, rfl⟩ := List.mem_map.mp hx
    obtain ⟨hec, hne⟩ := List.mem_filter.mp he
    exact ⟨List.mem_map.mpr ⟨e, hec, rfl⟩, by simpa using hne⟩
  · rintro ⟨hx, hne⟩
    obtain ⟨e, he, rfl⟩ := List.mem_map.mp hx
    exact List.mem_map.mpr ⟨e, List.mem_filter.mpr ⟨he, by simpa using hne⟩, rfl⟩

theorem cleanupLoop_sublist {V : Type} (expiryTime t : Nat)
    (q : List (Nat × String)) :
    ∀ (c : List (String × V × Nat)), ((cleanupLoop expiryTime t q c).2).Sublist c := by
  induction q with
  | nil => intro c; exact List.Sublist.refl c
  | cons hd rest ih =>
      intro c
      obtain ⟨qt, k⟩ := hd
      unfold cleanupLoop
      by_cases h : t - qt > expiryTime
      · rw [if_pos h]
        exact (ih _).trans (List.filter_sublist c)
      · rw [if_neg h]

/-- Characterization of the first cleanup phase on a time-sorted expiry queue:
a key survives it iff it was resident and owns no expired queue record. -/
theorem cleanupLoop_keys {V : Type} (expiryTime t : Nat) (q : List (Nat × String)) :
    List.Sorted (· ≤ ·) (q.map Prod.fst) →
    ∀ (c : List (String × V × Nat)) (x : String),
      (x ∈ ((cleanupLoop expiryTime t q c).2).map (fun e => e.1) ↔
        (x ∈ c.map (fun e => e.1) ∧
         ∀ p ∈ q, expiryTime < t - p.1 → p.2 ≠ x)) := by
  induction q with
  | nil =>
      intro _ c x
      simp [cleanupLoop]
  | cons hd rest ih =>
      intro hsort c x
      obtain ⟨qt, k⟩ := hd
      rw [List.map_cons, List.sorted_cons] at hsort
      obtain ⟨hle, hsort'⟩ := hsort
      unfold cleanupLoop
      by_cases h : t - qt > expiryTime
      · rw [if_pos h]
        rw [ih hsort' (c.filter (fun e => !(e.1 == k))) x, keys_of_filter_ne]
        constructor
        · rintro ⟨⟨hx, hne⟩, hP⟩
          refine ⟨hx, ?_⟩
          intro p hp hexp
          rcases List.mem_cons.mp hp with rfl | htl
          · exact fun hkx => hne hkx.symm
          · exact hP p htl hexp
        · rintro ⟨hx, hP⟩
          refine ⟨⟨hx, ?_⟩, ?_⟩
          · intro hxk
            exact hP (qt, k) (List.mem_cons_self _ _) h hxk.symm
          · intro p hp hexp
            exact hP p (List.mem_cons_of_mem _ hp) hexp
      · rw [if_neg h]
        constructor
        · intro hx
          refine ⟨hx, ?_⟩
          intro p hp hexp
          exfalso
          rcases List.mem_cons.mp hp with rfl | htl
          · omega
          · have hq : qt ≤ p.1 := hle p.1 (List.mem_map.mpr ⟨p, htl, rfl⟩)
            omega
        · exact fun hx => hx.1

/-- C8 amended: on a cache state with a time-ordered expiry queue and distinct
keys, a resident entry survives `cleanup(t)` **iff** its own (refreshed)
timestamp is within `expiryTime` **and** none of its expiry-queue records is
older than `expiryTime`.  So cleanup does remove every entry whose last
get/put refresh is older than `expiryTime`, but recency does not protect an
entry: any stale queue record left over from an earlier touch also removes it
(cleanup is not sliding expiration). -/
theorem lru_cleanup_iff (V : Type) (s : LRUState V) (t : Nat)
    (hsort : List.Sorted (· ≤ ·) (s.expiryQueue.map Prod.fst))
    (hnodup : (s.cache.map (fun e => e.1)).Nodup)
    (e : String × V × Nat) (he : e ∈ s.cache) :
    e.1 ∈ (s.cleanup t).keys ↔
      (t - e.2.2 ≤ s.expiryTime ∧
       ∀ p ∈ s.expiryQueue, p.2 = e.1 → t - p.1 ≤ s.expiryTime) := by
  have hsub := cleanupLoop_sublist (V := V) s.expiryTime t s.expiryQueue s.cache
  have hkeys := cleanupLoop_keys (V := V) s.expiryTime t s.expiryQueue hsort s.cache
  have huniq : ∀ e' ∈ (cleanupLoop s.expiryTime t s.expiryQueue s.cache).2,
      e'.1 = e.1 → e' = e := by
    intro e' he' hfst
    exact List.inj_on_of_nodup_map hnodup (hsub.subset he') he hfst
  have hc : (s.cleanup t).cache
      = ((cleanupLoop s.expiryTime t s.expiryQueue s.cache).2).filter
          (fun e => !(t - e.2.2 > s.expiryTime)) := rfl
  show e.1 ∈ (s.cleanup t).cache.map (fun e => e.1) ↔ _
  rw [hc]
  constructor
  · intro hx
    obtain ⟨e', he', hfst⟩ := List.mem_map.mp hx
    obtain ⟨he'p, hfresh⟩ := List.mem_filter.mp he'
    have heq : e' = e := huniq e' he'p hfst
    subst heq
    have hPx := (hkeys e'.1).mp (List.mem_map.mpr ⟨e', he'p, rfl⟩)
    refine ⟨by simpa using hfresh, ?_⟩
    intro p hp hpk
    by_contra hgt
    exact hPx.2 p hp (by omega) hpk
  · rintro ⟨hfresh, hP⟩
    have hxin : e.1 ∈ ((cleanupLoop s.expiryTime t s.expiryQueue s.cache).2).map
        (fun e => e.1) := by
      refine (hkeys e.1).mpr ⟨List.mem_map.mpr ⟨e, he, rfl⟩, ?_⟩
      intro p hp hexp hpk
      have := hP p hp hpk
      omega
    obtain ⟨e', he'p, hfst⟩ := List.mem_map.mp hxin
    have heq : e' = e := huniq e' he'p hfst
    subst heq
    refine List.mem_map.mpr ⟨e', List.mem_filter.mpr ⟨he'p, ?_⟩, hfst⟩
    simpa using hfresh

/-- Witness for C8's amended statement: a one-entry state whose sole record is
fresh at `t = 50`, so the entry survives cleanup. -/
theorem lru_cleanup_iff_witness :
    "a" ∈ ((⟨2, 100, [("a", 7, 5)], [(5, "a")]⟩ : LRUState Nat).cleanup 50).keys :=
  (lru_cleanup_iff Nat ⟨2, 100, [("a", 7, 5)], [(5, "a")]⟩ 50
      (by simp) (by decide) ("a", 7, 5) (by decide)).mpr
    (by constructor
        · decide
        · intro p hp _
          have : p = (5, "a") := by simpa using hp
          subst this
          decide)

/-! ## C1: capacity bound and the MRU abstraction of put sequences -/

theorem LRUState.step_capacity {V : Type} (s : LRUState V) (op : LRUOp V) :
    (s.step op).capacity = s.capacity := by
  cases op with
  | put k v t => rfl
  | get k t =>
      show (s.get k t).2.capacity = s.capacity
      unfold LRUState.get
      cases s.cache.find? (fun e => e.1 == k) <;> rfl

theorem LRUState.step_length_le {V : Type} (s : LRUState V) (op : LRUOp V)
    (h : s.cache.length ≤ s.capacity) :
    (s.step op).cache.length ≤ s.capacity := by
  cases op with
  | put k v t =>
      show (s.put k v t).cache.length ≤ s.capacity
      unfold LRUState.put
      have hf := List.length_filter_le (fun e' => !(e'.1 == k)) s.cache
      by_cases hh : ((s.cache.filter (fun e' => !(e'.1 == k))) ++ [(k, v, t)]).length
          > s.capacity
      · simp only [if_pos hh, List.length_tail]
        simp only [List.length_append, List.length_cons, List.length_nil] at hh ⊢
        omega
      · simp only [if_neg hh]
        omega
  | get k t =>
      show (s.get k t).2.cache.length ≤ s.capacity
      unfold LRUState.get
      cases hf : s.cache.find? (fun e => e.1 == k) with
      | none => exact h
      | some e =>
          have hmem := List.mem_of_find?_eq_some hf
          have hpe := List.find?_some hf
          have hlt : (s.cache.filter (fun e' => !(e'.1 == k))).length < s.cache.length :=
            List.length_filter_lt_length_iff_exists.mpr ⟨e, hmem, by simp [hpe]⟩
          simp only [List.length_append, List.length_cons, List.length_nil]
          omega

theorem LRUState.run_capacity {V : Type} (ops : List (LRUOp V)) :
    ∀ (s : LRUState V), (s.run ops).capacity = s.capacity := by
  induction ops with
  | nil => intro s; rfl
  | cons op ops ih =>
      intro s
      show ((s.step op).run ops).capacity = s.capacity
      rw [ih (s.step op), LRUState.step_capacity]

theorem LRUState.run_length_le {V : Type} (ops : List (LRUOp V)) :
    ∀ (s : LRUState V), s.cache.length ≤ s.capacity →
      (s.run ops).cache.length ≤ (s.run ops).capacity := by
  induction ops with
  | nil => intro s h; exact h
  | cons op ops ih =>
      intro s h
      show ((s.step op).run ops).cache.length ≤ ((s.step op).run ops).capacity
      exact ih (s.step op) (by
        rw [LRUState.step_capacity]
        exact LRUState.step_length_le s op h)

theorem map_fst_filter_ne {V : Type} (c : List (String × V × Nat)) (k : String) :
    (c.filter (fun e => !(e.1 == k))).map (fun e => e.1)
      = (c.map (fun e => e.1)).filter (fun x => !(x == k)) := by
  induction c with
  | nil => rfl
  | cons e tl ih =>
      by_cases h : e.1 == k
      · rw [List.map_cons, List.filter_cons_of_neg (by simp [h]),
          List.filter_cons_of_neg (by simp [h]), ih]
      · rw [List.map_cons, List.filter_cons_of_pos (by simp [h]),
          List.filter_cons_of_pos (by simp [h]), List.map_cons, ih]

theorem tail_reverse_eq_dropLast_reverse {γ : Type} (l : List γ) :
    l.tail.reverse = l.reverse.dropLast := by
  cases l with
  | nil => rfl
  | cons x xs =>
      rw [List.tail_cons, List.reverse_cons, List.dropLast_concat]

/-- `put` on the most-recently-used view: prepend the key, drop its old
occurrence, truncate to capacity. -/
theorem recentKeys_put {V : Type} (s : LRUState V) (k : String) (v : V) (t : Nat)
    (hlen : s.cache.length ≤ s.capacity) :
    (s.put k v t).recentKeys
      = (k :: s.recentKeys.filter (fun x => !(x == k))).take s.capacity := by
  unfold LRUState.put LRUState.recentKeys LRUState.keys
  have hkeys : ((s.cache.filter (fun e' => !(e'.1 == k))) ++ [(k, v, t)]).map
        (fun e => e.1)
      = (s.cache.map (fun e => e.1)).filter (fun x => !(x == k)) ++ [k] := by
    rw [List.map_append, map_fst_filter_ne]
    rfl
  have hrev : (((s.cache.filter (fun e' => !(e'.1 == k))) ++ [(k, v, t)]).map
        (fun e => e.1)).reverse
      = k :: (s.cache.map (fun e => e.1)).reverse.filter (fun x => !(x == k)) := by
    rw [hkeys, List.reverse_append, List.filter_reverse]
    rfl
  have hflen := List.length_filter_le (fun x => !(x == k))
    (s.cache.map (fun e => e.1)).reverse
  rw [List.length_reverse, List.length_map] at hflen
  by_cases hh : ((s.cache.filter (fun e' => !(e'.1 == k))) ++ [(k, v, t)]).length
      > s.capacity
  · simp only [if_pos hh]
    rw [List.map_tail, tail_reverse_eq_dropLast_reverse, hrev, List.dropLast_eq_take]
    have hlc : (k :: (s.cache.map (fun e => e.1)).reverse.filter
        (fun x => !(x == k))).length = s.capacity + 1 := by
      rw [← hrev, List.length_reverse, List.length_map]
      have h1 := List.length_filter_le (fun e' => !(e'.1 == k)) s.cache
      simp only [List.length_append, List.length_cons, List.length_nil] at hh ⊢
      omega
    rw [hlc]
    simp
  · simp only [if_neg hh]
    rw [hrev]
    have hle : (k :: (s.cache.map (fun e => e.1)).reverse.filter
        (fun x => !(x == k))).length ≤ s.capacity := by
      rw [← hrev, List.length_reverse, List.length_map]
      simp only [List.length_append, List.length_cons, List.length_nil] at hh ⊢
      omega
    exact (List.take_of_length_le hle).symm

/-- `dedupKeepFirst` unfolding on a cons cell. -/
theorem dkf_cons (k : String) (rest : List String) :
    dedupKeepFirst (k :: rest)
      = k :: dedupKeepFirst (rest.filter (fun x => !(x == k))) := by
  rw [dedupKeepFirst]

theorem dkf_subset : ∀ (l : List String) (x : String),
    x ∈ dedupKeepFirst l → x ∈ l := by
  intro l
  match l with
  | [] => intro x hx; simpa [dedupKeepFirst] using hx
  | k :: rest =>
      intro x hx
      rw [dkf_cons] at hx
      rcases List.mem_cons.mp hx with rfl | hx'
      · exact List.mem_cons_self _ _
      · have := dkf_subset (rest.filter (fun y => !(y == k))) x hx'
        exact List.mem_cons_of_mem _ (List.mem_of_mem_filter this)
termination_by l => l.length
decreasing_by
  exact Nat.lt_succ_of_le (List.length_filter_le _ _)

theorem dkf_nodup : ∀ (l : List String), (dedupKeepFirst l).Nodup := by
  intro l
  match l with
  | [] => simp [dedupKeepFirst]
  | k :: rest =>
      rw [dkf_cons, List.nodup_cons]
      refine ⟨?_, dkf_nodup (rest.filter (fun y => !(y == k)))⟩
      intro hk
      have := dkf_subset _ _ hk
      have := (List.mem_filter.mp this).2
      simp at this
termination_by l => l.length
decreasing_by
  exact Nat.lt_succ_of_le (List.length_filter_le _ _)

/-- `dedupKeepFirst` commutes with filtering by any predicate. -/
theorem dkf_filter (p : String → Bool) : ∀ (l : List String),
    dedupKeepFirst (l.filter p) = (dedupKeepFirst l).filter p := by
  intro l
  match l with
  | [] => simp [dedupKeepFirst]
  | x :: rest =>
      have hcomm : (rest.filter p).filter (fun y => !(y == x))
          = (rest.filter (fun y => !(y == x))).filter p := by
        rw [List.filter_filter, List.filter_filter]
        congr 1
        funext y
        rw [Bool.and_comm]
      by_cases hp : p x
      · rw [List.filter_cons_of_pos hp, dkf_cons, dkf_cons,
          List.filter_cons_of_pos hp, hcomm,
          dkf_filter p (rest.filter (fun y => !(y == x)))]
      · rw [List.filter_cons_of_neg hp, dkf_cons,
          List.filter_cons_of_neg hp,
          ← dkf_filter p (rest.filter (fun y => !(y == x))), ← hcomm]
        have hid : (rest.filter p).filter (fun y => !(y == x)) = rest.filter p := by
          apply List.filter_eq_self.mpr
          intro y hy
          have hpy := (List.mem_filter.mp hy).2
          simp only [Bool.not_eq_true']
          by_contra hbeq
          rw [Bool.not_eq_false] at hbeq
          have : y = x := by simpa using hbeq
          subst this
          exact hp hpy
        rw [hid]
termination_by l => l.length
decreasing_by
  all_goals exact Nat.lt_succ_of_le (List.length_filter_le _ _)

/-- On a duplicate-free list, truncating before filtering one key away agrees
with filtering first, up to a one-shorter truncation. -/
theorem take_filter_key : ∀ (d : List String), d.Nodup → ∀ (k : String) (n : Nat),
    ((d.take (n + 1)).filter (fun x => !(x == k))).take n
      = (d.filter (fun x => !(x == k))).take n := by
  intro d
  induction d with
  | nil => intro _ k n; rfl
  | cons a d' ih =>
      intro hd k n
      obtain ⟨ha, hd'⟩ := List.nodup_cons.mp hd
      by_cases hak : a == k
      · have haeq : a = k := by simpa using hak
        subst haeq
        rw [List.take_succ_cons, List.filter_cons_of_neg (by simp),
          List.filter_cons_of_neg (by simp)]
        have hid : ∀ (l : List String), l ⊆ d' →
            l.filter (fun x => !(x == a)) = l := by
          intro l hl
          apply List.filter_eq_self.mpr
          intro y hy
          have : y ≠ a := fun hya => ha (hya ▸ hl hy)
          simpa using this
        rw [hid (d'.take n) (List.take_subset n d'), hid d' (fun y hy => hy),
          List.take_take]
        simp
      · rw [List.take_succ_cons, List.filter_cons_of_pos (by simpa using hak),
          List.filter_cons_of_pos (by simpa using hak)]
        cases n with
        | zero => simp
        | succ n' =>
            rw [List.take_succ_cons, List.take_succ_cons]
            congr 1
            exact ih hd' k n'

theorem LRUState.run_append {V : Type} (s : LRUState V)
    (l1 l2 : List (LRUOp V)) : s.run (l1 ++ l2) = (s.run l1).run l2 := by
  unfold LRUState.run
  rw [List.foldl_append]

/-- C1: starting from the empty cache, (i) no sequence of `put`/`get`
operations ever leaves more than `capacity` entries resident, and (ii) after
any sequence of `put`s the resident keys, in most-recently-used order, are
exactly the first `capacity` most-recently-touched distinct keys (so once the
sequence touches more than `capacity` distinct keys, the resident set is
exactly the `capacity` most recently touched ones, the least recently used
being evicted). -/
theorem lru_capacity_and_mru (V : Type) (capacity expiryTime : Nat) :
    (∀ ops : List (LRUOp V),
       ((LRUState.empty V capacity expiryTime).run ops).cache.length ≤ capacity) ∧
    (∀ puts : List (String × V × Nat),
       ((LRUState.empty V capacity expiryTime).run
           (puts.map (fun p => LRUOp.put p.1 p.2.1 p.2.2))).recentKeys
         = (dedupKeepFirst ((puts.map (fun p => p.1)).reverse)).take capacity) := by
  have hlenrun : ∀ ops : List (LRUOp V),
      ((LRUState.empty V capacity expiryTime).run ops).cache.length ≤ capacity := by
    intro ops
    have h := LRUState.run_length_le ops (LRUState.empty V capacity expiryTime)
      (by simp [LRUState.empty])
    rwa [LRUState.run_capacity] at h
  refine ⟨hlenrun, ?_⟩
  intro puts
  induction puts using List.reverseRecOn with
  | nil =>
      show ([] : List String).reverse = _
      simp [dedupKeepFirst]
  | append_singleton ps p ih =>
      rw [List.map_append, LRUState.run_append]
      have hcap := LRUState.run_capacity
        (ps.map (fun p => LRUOp.put p.1 p.2.1 p.2.2))
        (LRUState.empty V capacity expiryTime)
      have hlen := hlenrun (ps.map (fun p => LRUOp.put p.1 p.2.1 p.2.2))
      rw [show ((LRUState.empty V capacity expiryTime).run
            (ps.map (fun p => LRUOp.put p.1 p.2.1 p.2.2))).run
              ([p].map (fun p => LRUOp.put p.1 p.2.1 p.2.2))
          = ((LRUState.empty V capacity expiryTime).run
              (ps.map (fun p => LRUOp.put p.1 p.2.1 p.2.2))).put p.1 p.2.1 p.2.2
          from rfl]
      rw [recentKeys_put _ _ _ _ (by rw [hcap]; exact hlen), hcap, ih]
      simp only [List.map_append, List.map_cons, List.map_nil, List.reverse_append,
        List.reverse_cons, List.reverse_nil, List.nil_append, List.singleton_append,
        LRUState.empty]
      rw [dkf_cons, dkf_filter]
      cases capacity with
      | zero => rfl
      | succ m =>
          rw [List.take_succ_cons, List.take_succ_cons]
          congr 1
          exact take_filter_key (dedupKeepFirst ((ps.map (fun p => p.1)).reverse))
            (dkf_nodup _) p.1 m

end RagApi
